import Mathlib

/- Verification of the graph utility module of scirpy (scirpy/util/graph.py):
sparse distance-to-connectivity conversion, graph construction from a sparse
adjacency matrix, and the per-component graph layout machinery
(`layout_components` and its box-packing strategies).

Modelling conventions:
* floating point values are modelled as exact rationals; the only float
  computation with no exact rational counterpart, the footprint `n ** 0.8`
  of the box packers, is abstracted as an explicit value table;
* scipy CSR matrices are modelled as a square shape plus one `(column, value)`
  list per row; "structurally stored" means the pair is present in that list;
* external capabilities (igraph's per-component layout, `rpack.pack`) are
  abstracted as parameters, constrained only by their documented contracts;
* numpy's `argsort` (default kind, introsort) is translated from numpy's
  `aquicksort`/`aheapsort` sources, since the tie-breaking behaviour of the
  component sort depends on it. -/

/-! ## Sparse matrices and the distance-to-connectivity conversion -/

/-- Sparse matrix in CSR layout: a square shape `n × n` and one list of
`(column, value)` pairs per row.  Stored entries model scipy's explicitly
stored entries (which may hold the value zero until `eliminate_zeros` removes
them). -/
structure CsrMatrix where
  n : Nat
  rows : List (List (Nat × ℚ))
deriving DecidableEq, Inhabited

/-- All stored values of the matrix, row-major (scipy's `.data`). -/
def CsrMatrix.data (m : CsrMatrix) : List ℚ :=
  (m.rows.map (List.map Prod.snd)).flatten

/-- Number of stored entries (scipy's `.nnz`). -/
def CsrMatrix.nnz (m : CsrMatrix) : Nat := m.data.length

/-- Maximum of a list of rationals, `0` for the empty list (scipy only calls
this on a nonempty `.data`). -/
def maxData : List ℚ → ℚ
  | [] => 0
  | v :: rest => rest.foldl max v

/-- Model of `np.max(distances)` on a scipy sparse matrix (graph.py line 65):
scipy's `_min_or_max` reduces over all matrix elements, implicit zeros
included, so when the matrix is not completely dense the result is clamped
below by `0`; an empty data array yields `0`. -/
def spMax (m : CsrMatrix) : ℚ :=
  if m.nnz = 0 then 0
  else if m.nnz ≠ m.n * m.n then max (maxData m.data) 0
  else maxData m.data

/-- Lines 68-71 of graph.py: `d = connectivities.data - 1` followed by
`connectivities.data = (max_value - d) / max_value`, applied entrywise; the
sparsity structure is unchanged. -/
def mapConnectivityData (maxValue : ℚ) (rows : List (List (Nat × ℚ))) :
    List (List (Nat × ℚ)) :=
  rows.map (List.map (fun cv => (cv.1, (maxValue - (cv.2 - 1)) / maxValue)))

/-- scipy's `eliminate_zeros` (graph.py line 72): remove exactly the stored
entries whose value is zero from the sparse structure. -/
def eliminateZeros (rows : List (List (Nat × ℚ))) : List (List (Nat × ℚ)) :=
  rows.map (List.filter (fun cv => cv.2 != 0))

/-- `_distance_to_connectivity` (graph.py lines 43-74) on a matrix already in
CSR layout: default the max value to `np.max(distances)`, map every stored
value `v` to `(max_value - (v - 1)) / max_value`, then `eliminate_zeros`. -/
def distanceToConnectivity (distances : CsrMatrix) (maxValue : Option ℚ) :
    CsrMatrix :=
  let M := maxValue.getD (spMax distances)
  { n := distances.n, rows := eliminateZeros (mapConnectivityData M distances.rows) }

/-- A scipy sparse matrix together with its storage layout; `tocsr` converts
any of them to CSR without changing the stored entries. -/
inductive SparseMat where
  | csr (m : CsrMatrix)
  | csc (m : CsrMatrix)
  | coo (m : CsrMatrix)
deriving DecidableEq

/-- `matrix.tocsr()`: convert any sparse layout to CSR. -/
def SparseMat.tocsr : SparseMat → CsrMatrix
  | .csr m => m
  | .csc m => m
  | .coo m => m

/-- `isinstance(matrix, csr_matrix)`. -/
def SparseMat.isCsrFormat : SparseMat → Bool
  | .csr _ => true
  | _ => false

/-- The format-error message of `_distance_to_connectivity` (graph.py line 62). -/
def csrFormatError : String := "Distance matrix must be in CSR format."

/-- `_distance_to_connectivity` including its `isinstance(distances, csr_matrix)`
format check (graph.py lines 61-62): a non-CSR argument raises `ValueError`. -/
def distanceToConnectivityChecked (distances : SparseMat) (maxValue : Option ℚ) :
    Except String CsrMatrix :=
  match distances with
  | .csr m => .ok (distanceToConnectivity m maxValue)
  | _ => .error csrFormatError

/-- Weighted undirected igraph graph as built by `_get_igraph_from_adjacency`:
a vertex count, an edge list and the parallel weight list. -/
structure IGraph where
  vcount : Nat
  edges : List (Nat × Nat)
  weights : List ℚ
deriving DecidableEq

/-- `adj.nonzero()` paired with the corresponding values: all stored entries
whose value is not zero, as `(row, column, value)` triples in row-major
order. -/
def csrNonzero (m : CsrMatrix) : List (Nat × Nat × ℚ) :=
  ((m.rows.enum).map (fun r =>
    (r.2.filter (fun cv => cv.2 != 0)).map (fun cv => (r.1, cv.1, cv.2)))).flatten

/-- `_get_igraph_from_adjacency` (graph.py lines 77-110): vertex count = matrix
dimension, one edge per stored nonzero coordinate pair, each carrying its
stored value as the edge weight. -/
def getIgraphFromAdjacency (adj : CsrMatrix) : IGraph :=
  { vcount := adj.n
    edges := (csrNonzero adj).map (fun e => (e.1, e.2.1))
    weights := (csrNonzero adj).map (fun e => e.2.2) }

/-- The `matrix_type` argument of `igraph_from_sparse_matrix`. -/
inductive MatrixType where
  | connectivity
  | distance
deriving DecidableEq

/-- `igraph_from_sparse_matrix` (graph.py lines 8-40).  The input is converted
with `matrix.tocsr()` on line 35, BEFORE the `matrix_type == "distance"`
branch, so the checked conversion always receives a CSR matrix. -/
def igraphFromSparseMatrix (matrix : SparseMat) (matrixType : MatrixType)
    (maxValue : Option ℚ) : Except String IGraph := do
  let m := SparseMat.csr matrix.tocsr
  let conv ← match matrixType with
    | .distance => distanceToConnectivityChecked m maxValue
    | .connectivity => Except.ok m.tocsr
  pure (getIgraphFromAdjacency conv)

/-! ## A heap of matrices, for the frame property of the conversion -/

/-- Heap of sparse matrices: references are list positions.  Used to state
that `_distance_to_connectivity` mutates only the copy it allocates. -/
abbrev MatStore := List CsrMatrix

/-- Dereference a matrix. -/
def storeGet (st : MatStore) (r : Nat) : CsrMatrix := List.getD st r default

/-- Overwrite the matrix behind a reference. -/
def storeSet (st : MatStore) (r : Nat) (m : CsrMatrix) : MatStore :=
  List.set st r m

/-- `_distance_to_connectivity` as heap operations (graph.py lines 64-74):
`connectivities = distances.copy()` allocates a fresh matrix at a fresh
reference; the `connectivities.data = ...` assignment and `eliminate_zeros`
then mutate only that fresh matrix.  Returns the heap and the result
reference. -/
def distanceToConnectivityProc (st : MatStore) (r : Nat) (maxValue : Option ℚ) :
    MatStore × Nat :=
  let distances := storeGet st r
  let M := maxValue.getD (spMax distances)
  let cr := List.length st
  let st1 : MatStore := st ++ [distances]
  let c1 := storeGet st1 cr
  let st2 := storeSet st1 cr { n := c1.n, rows := mapConnectivityData M c1.rows }
  let c2 := storeGet st2 cr
  let st3 := storeSet st2 cr { n := c2.n, rows := eliminateZeros c2.rows }
  (st3, cr)

/-! ## layout_components: decomposition bookkeeping and reassembly -/

/-- One decomposed component: the list of original vertex ids (`v["id"]`,
graph.py lines 162-165) in the component's local vertex order. -/
abbrev Component := List Nat

/-- `components[order]` (graph.py line 168): reorder the decomposed components
by an index list (the argsort of the component sizes). -/
def componentsSorted (comps : List Component) (order : List Nat) :
    List Component :=
  order.map (fun j => comps.getD j [])

/-- `vertex_ids` (graph.py line 170): the original ids of all vertices of all
components, in processing order. -/
def vertexIds (scomps : List Component) : List Nat := scomps.flatten

/-- `component_layouts` (graph.py lines 178-181), with the per-component
layout-and-rescale `_layout_component` abstracted as `L` mapping (position in
the processing order, component) to one coordinate row per component
vertex. -/
def componentLayouts (L : Nat → Component → List (ℚ × ℚ)) :
    Nat → List Component → List (List (ℚ × ℚ))
  | _, [] => []
  | p, c :: rest => L p c :: componentLayouts L (p + 1) rest

/-- `coords = np.vstack(component_layouts)[vertex_sorter, :]` (graph.py line
183): stack all per-component rows and gather them by the sorter index
array. -/
def layoutComponentsModel (comps : List Component) (order vertexSorter : List Nat)
    (L : Nat → Component → List (ℚ × ℚ)) : List (ℚ × ℚ) :=
  let stacked := (componentLayouts L 0 (componentsSorted comps order)).flatten
  vertexSorter.map (fun j => stacked.getD j (0, 0))

/-- Contract of `np.argsort(keys)` (numpy's documented behaviour, any sort
kind): the result is a permutation of the positions of `keys` that enumerates
the key values in ascending order. -/
def IsArgsortOf (sorter keys : List Nat) : Prop :=
  sorter.Perm (List.range keys.length) ∧
    (sorter.map (fun j => keys.getD j 0)).Sorted (· ≤ ·)

/-! ## numpy's argsort (default kind), translated from numpy's npysort sources

`layout_components` sorts the components with `np.argsort(component_sizes)`
(graph.py line 167) without requesting a stable kind, so the tie-breaking
behaviour is that of numpy's introsort `aquicksort_` (quicksort with
median-of-3 pivot, insertion sort below `SMALL_QUICKSORT = 15` remaining
elements, `aheapsort_` beyond the depth limit).  The translation below keeps
the exact swap/shift structure of the C source; the index array is a
`List Nat` and loops are expressed as recursions on explicit counters. -/

/-- `v[*p]`: the key value behind position `p` of the index array `t`. -/
def vAt (v t : List Nat) (p : Nat) : Nat := v.getD (t.getD p 0) 0

/-- `INTP_SWAP` of two positions of the index array. -/
def iswap (t : List Nat) (i j : Nat) : List Nat :=
  (t.set i (t.getD j 0)).set j (t.getD i 0)

/-- Inner shift loop of the insertion sort
(`while (pj > pl && vp < v[*pk]) { *pj-- = *pk--; }`): walk `pj` down from
`pi`, shifting entries one slot up; returns the shifted index array and the
final `pj`. -/
def insShift (v : List Nat) (vp pl : Nat) : Nat → List Nat → List Nat × Nat
  | 0, t => (t, 0)
  | pj + 1, t =>
    if pl ≤ pj ∧ vp < vAt v t pj then
      insShift v vp pl pj (t.set (pj + 1) (t.getD pj 0))
    else
      (t, pj + 1)

/-- The `for (pi = pl + 1; pi <= pr; ++pi)` insertion loop, running `count`
iterations: save `vi = *pi`, shift, then place `*pj = vi`. -/
def insLoop (v : List Nat) (pl : Nat) : Nat → Nat → List Nat → List Nat
  | _, 0, t => t
  | pi, count + 1, t =>
    let vi := t.getD pi 0
    let s := insShift v (v.getD vi 0) pl pi t
    insLoop v pl (pi + 1) count (s.1.set s.2 vi)

/-- Insertion sort over positions `pl..pr` of the index array (the
small-segment branch of `aquicksort_`). -/
def insertionSeg (v : List Nat) (pl pr : Nat) (t : List Nat) : List Nat :=
  insLoop v pl (pl + 1) (pr - pl) t

/-- 1-based read of `aheapsort_`'s `a[x]` where `a = tosort + base - 1`. -/
def aGet (t : List Nat) (base x : Nat) : Nat := t.getD (base + x - 1) 0

/-- 1-based write of `aheapsort_`'s `a[x]`. -/
def aSet (t : List Nat) (base x val : Nat) : List Nat := t.set (base + x - 1) val

/-- Sift loop of `aheapsort_` (`for (i = l, j = l*2; j <= n;)`); the fuel is an
upper bound on the number of doublings of `j`. -/
def siftLoop (v : List Nat) (base n vtmp : Nat) :
    Nat → Nat → Nat → List Nat → List Nat × Nat
  | 0, i, _, t => (t, i)
  | fuel + 1, i, j, t =>
    if j ≤ n then
      let j1 := if j < n ∧ v.getD (aGet t base j) 0 < v.getD (aGet t base (j + 1)) 0
        then j + 1 else j
      if vtmp < v.getD (aGet t base j1) 0 then
        siftLoop v base n vtmp fuel j1 (j1 + j1) (aSet t base i (aGet t base j1))
      else (t, i)
    else (t, i)

/-- Heapify phase of `aheapsort_`: `l` descending from `n >> 1` to `1`. -/
def heapifyLoop (v : List Nat) (base n : Nat) : Nat → List Nat → List Nat
  | 0, t => t
  | l + 1, t =>
    let tmp := aGet t base (l + 1)
    let s := siftLoop v base n (v.getD tmp 0) (n + 2) (l + 1) ((l + 1) * 2) t
    heapifyLoop v base n l (aSet s.1 base s.2 tmp)

/-- Extraction phase of `aheapsort_`: repeatedly move the root `a[1]` to the
shrinking tail `a[n]` and sift the displaced element down. -/
def extractLoop (v : List Nat) (base : Nat) : Nat → List Nat → List Nat
  | 0, t => t
  | 1, t => t
  | n + 2, t =>
    let tmp := aGet t base (n + 2)
    let t1 := aSet t base (n + 2) (aGet t base 1)
    let s := siftLoop v base (n + 1) (v.getD tmp 0) (n + 3) 1 2 t1
    extractLoop v base (n + 1) (aSet s.1 base s.2 tmp)

/-- `aheapsort_(vv, pl, n)`: heapsort of the `n` positions starting at
`base`. -/
def aheapsortSeg (v : List Nat) (base n : Nat) (t : List Nat) : List Nat :=
  extractLoop v base n (heapifyLoop v base n (n / 2) t)

/-- `do ++pi; while (v[*pi] < vp)`: first position above `pi` whose key is not
below the pivot. -/
def scanUp (v : List Nat) (vp : Nat) : Nat → Nat → List Nat → Nat
  | 0, pi, _ => pi
  | fuel + 1, pi, t =>
    if vAt v t (pi + 1) < vp then scanUp v vp fuel (pi + 1) t else pi + 1

/-- `do --pj; while (vp < v[*pj])`: first position below `pj` whose key is not
above the pivot. -/
def scanDown (v : List Nat) (vp : Nat) : Nat → List Nat → Nat
  | 0, _ => 0
  | pj + 1, t =>
    if vp < vAt v t pj then scanDown v vp pj t else pj

/-- The partition exchange loop of `aquicksort_`: scan from both ends and swap
out-of-place pairs until the cursors cross; returns the array and the final
`pi`. -/
def partitionLoop (v : List Nat) (vp B : Nat) :
    Nat → Nat → Nat → List Nat → List Nat × Nat
  | 0, pi, _, t => (t, pi)
  | fuel + 1, pi, pj, t =>
    let pi1 := scanUp v vp B pi t
    let pj1 := scanDown v vp pj t
    if pj1 ≤ pi1 then (t, pi1)
    else partitionLoop v vp B fuel pi1 pj1 (iswap t pi1 pj1)

/-- One quicksort partition step of `aquicksort_` over positions `pl..pr`:
median-of-3 pivot selection (three conditional swaps), pivot parked at
`pr - 1`, exchange scan, pivot swapped back to the crossing point. -/
def partitionSeg (v : List Nat) (pl pr : Nat) (t : List Nat) : List Nat × Nat :=
  let pm := pl + (pr - pl) / 2
  let t1 := if vAt v t pm < vAt v t pl then iswap t pm pl else t
  let t2 := if vAt v t1 pr < vAt v t1 pm then iswap t1 pr pm else t1
  let t3 := if vAt v t2 pm < vAt v t2 pl then iswap t2 pm pl else t2
  let vp := vAt v t3 pm
  let t4 := iswap t3 pm (pr - 1)
  let s := partitionLoop v vp (pr + 2) (pr + 2) pl (pr - 1) t4
  (iswap s.1 s.2 (pr - 1), s.2)

/-- Main loop of `aquicksort_`: segments larger than `SMALL_QUICKSORT = 15`
are partitioned (the larger half pushed on the explicit stack) until the depth
limit trips into heapsort; small segments are insertion sorted; then the next
segment is popped from the stack. -/
def qloop (v : List Nat) : Nat → List Nat → Nat → Nat → List (Nat × Nat) → Int → List Nat
  | 0, t, _, _, _, _ => t
  | fuel + 1, t, pl, pr, stack, depth =>
    if 15 < pr - pl then
      (if depth < 0 then
        let t1 := aheapsortSeg v pl (pr - pl + 1) t
        match stack with
        | [] => t1
        | (a, b) :: rest => qloop v fuel t1 a b rest (depth - 1)
      else
        let s := partitionSeg v pl pr t
        let pi := s.2
        if pi - pl < pr - pi then
          qloop v fuel s.1 pl (pi - 1) ((pi + 1, pr) :: stack) (depth - 1)
        else
          qloop v fuel s.1 (pi + 1) pr ((pl, pi - 1) :: stack) (depth - 1))
    else
      let t1 := insertionSeg v pl pr t
      match stack with
      | [] => t1
      | (a, b) :: rest => qloop v fuel t1 a b rest depth

/-- `np.argsort(v)` with the default kind: numpy's `aquicksort_` on the index
array `[0, ..., len - 1]`, with depth limit `npy_get_msb(num) * 2`.  The fuel
bounds the number of outer-loop iterations, which for the given depth limit
never exceeds it. -/
def npArgsort (v : List Nat) : List Nat :=
  qloop v (v.length * v.length + 2) (List.range v.length) 0 (v.length - 1) []
    ((2 * Nat.log2 v.length : Nat) : Int)

/-- `order = np.argsort(component_sizes)` (graph.py line 167): the order in
which `layout_components` processes the decomposed components. -/
def componentOrder (componentSizes : List Nat) : List Nat :=
  npArgsort componentSizes

/-- List-level stable insertion of index `i` into an index list: `i` is placed
before the first entry whose key is strictly greater (so after all equal
keys).  This is the functional reading of the shift loop of numpy's insertion
sort, used to characterise the small-array (`num ≤ 16`) path of `npArgsort`. -/
def stableInsert (v : List Nat) (i : Nat) : List Nat → List Nat
  | [] => [i]
  | j :: rest =>
    if v.getD i 0 < v.getD j 0 then i :: j :: rest
    else j :: stableInsert v i rest

/-- The stable insertion argsort: indices inserted in ascending order. -/
def insertionArgsortL (v : List Nat) : List Nat :=
  (List.range v.length).foldl (fun acc i => stableInsert v i acc) []

/-! ## Box packing strategies

The footprint of a component of `n` vertices is `n ** 0.8` computed in
floating point (`_get_bbox_dimensions` with `power=0.8`).  Since the exact
value of the float power is irrational in the reals and machine-specific as a
float, the box-packing functions take the power table as an explicit
parameter `fp : Nat → ℚ` (the exact rational value of the float `n ** 0.8`),
and the theorems below hold for every such table; concrete instances use the
idealised values `fp 1 = 1`, `fp 32 = 16`. -/

/-- `_get_bbox_dimensions` (graph.py lines 281-283): the footprint of a
component of `n` vertices is the square `(n ** power, n ** power)`, with the
float power `n ** 0.8` abstracted as the table `fp`. -/
def getBboxDimensions (fp : Nat → ℚ) (n : Nat) : ℚ × ℚ := (fp n, fp n)

/-- `_bbox_sorted` (graph.py lines 261-278), as a recursion over the sizes
with the cursor state `(x, y, current_n)` (initially `(0, 0, 1)`): a "new
line" is started whenever the size differs from `current_n`. -/
def bboxSortedGo (fp : Nat → ℚ) (padx pady : ℚ) :
    ℚ → ℚ → Nat → List Nat → List (ℚ × ℚ × ℚ × ℚ)
  | _, _, _, [] => []
  | x, y, curN, n :: rest =>
    let w := (getBboxDimensions fp n).1
    let h := (getBboxDimensions fp n).2
    if n = curN then
      (x, y, w, h) :: bboxSortedGo fp padx pady (x + w + padx) y curN rest
    else
      (0, y + h + pady, w, h) ::
        bboxSortedGo fp padx pady (w + padx) (y + h + pady) n rest

/-- `_bbox_sorted` with its initial state. -/
def bboxSorted (fp : Nat → ℚ) (componentSizes : List Nat) (padx pady : ℚ) :
    List (ℚ × ℚ × ℚ × ℚ) :=
  bboxSortedGo fp padx pady 0 0 1 componentSizes

/-- Python `int()`: truncation toward zero. -/
def pyInt (x : ℚ) : ℤ := if 0 ≤ x then ⌊x⌋ else -⌊-x⌋

/-- Modelled from the spec: `rpack.enclosing_size(dimensions, origins)` of the
external `rectangle-packer` capability is the size of the minimal axis-aligned
rectangle based at the origin that encloses every placed rectangle. -/
def enclosingSize (dims origins : List (ℤ × ℤ)) : ℤ × ℤ :=
  (((origins.zip dims).map (fun od => od.1.1 + od.2.1)).foldr max 0,
   ((origins.zip dims).map (fun od => od.1.2 + od.2.2)).foldr max 0)

/-- `_bbox_rpack` (graph.py lines 187-224), with the external `rpack.pack`
capability abstracted as the `pack` parameter (the spec describes it as an
integer rectangle bin-packing algorithm; its contract is captured by
`ValidPacking` below).  Footprints are reversed to descending size, padded and
truncated to integers; after packing, the shorter dimension of each BOX SIZE
(the origins are left untouched) is scaled by the enclosing aspect ratio and
the padding is subtracted; the box list is reversed back to ascending
order. -/
def bboxRpack (fp : Nat → ℚ) (componentSizes : List Nat) (padx pady : ℚ)
    (pack : List (ℤ × ℤ) → List (ℤ × ℤ)) : List (ℚ × ℚ × ℚ × ℚ) :=
  let dims0 := componentSizes.map (getBboxDimensions fp)
  let dims := dims0.reverse.map (fun wh => (pyInt (wh.1 + padx), pyInt (wh.2 + pady)))
  let origins := pack dims
  let outer := enclosingSize dims origins
  let aspectRatio : ℚ := (outer.1 : ℚ) / (outer.2 : ℚ)
  let scale : ℚ × ℚ := if 1 < aspectRatio then (1, aspectRatio) else (aspectRatio, 1)
  (((origins.zip dims).map (fun od =>
    ((od.1.1 : ℚ), (od.1.2 : ℚ),
      (od.2.1 : ℚ) * scale.1 - padx, (od.2.2 : ℚ) * scale.2 - pady))).reverse)

/-- Two placed integer rectangles (origin, dimensions) do not overlap: they
are separated along some axis. -/
def rectsDisjoint (r1 r2 : (ℤ × ℤ) × (ℤ × ℤ)) : Prop :=
  r1.1.1 + r1.2.1 ≤ r2.1.1 ∨ r2.1.1 + r2.2.1 ≤ r1.1.1 ∨
  r1.1.2 + r1.2.2 ≤ r2.1.2 ∨ r2.1.2 + r2.2.2 ≤ r1.1.2

/-- Contract of the external rectangle packer on a given input: one origin per
rectangle, and the placed rectangles are pairwise non-overlapping. -/
def ValidPacking (dims origins : List (ℤ × ℤ)) : Prop :=
  origins.length = dims.length ∧ (origins.zip dims).Pairwise rectsDisjoint

/-- Two bounding boxes `(x, y, w, h)` overlap: their interiors intersect
(boxes of nonpositive width or height never overlap anything). -/
def boxesOverlap (b1 b2 : ℚ × ℚ × ℚ × ℚ) : Prop :=
  b1.1 < b2.1 + b2.2.2.1 ∧ b2.1 < b1.1 + b1.2.2.1 ∧
  b1.2.1 < b2.2.1 + b2.2.2.2 ∧ b2.2.1 < b1.2.1 + b1.2.2.2

/-- Idealised float power table for the concrete instances: `1 ** 0.8 = 1.0`
exactly, and `32 ** 0.8` idealised to its real value `16`. -/
def fpPow08 : Nat → ℚ := fun n => if n = 32 then 16 else 1

/-- A concrete conforming packing for the refutation of the rpack non-overlap
claim: for the four descending footprints `[(17,17), (17,17), (2,2), (2,2)]`
(sizes `[1, 1, 32, 32]` with unit padding) it places the two large squares
side by side and stacks the two small ones to their right. -/
def packWide : List (ℤ × ℤ) → List (ℤ × ℤ) :=
  fun _ => [(0, 0), (17, 0), (34, 0), (34, 2)]

/-- A concrete conforming packing with a square enclosing rectangle: the four
padded unit footprints `(2, 2)` (sizes `[1, 1, 1, 1]`) in a 2-by-2 grid. -/
def packSquare : List (ℤ × ℤ) → List (ℤ × ℤ) :=
  fun _ => [(0, 0), (2, 0), (0, 2), (2, 2)]

/-! ## Rescaling a component layout into its bounding box -/

/-- Column minimum, as in `np.min(coords, axis=0)` (nonempty input; `0` as the
junk value for the empty list, which numpy rejects). -/
def colMin : List ℚ → ℚ
  | [] => 0
  | a :: rest => rest.foldl min a

/-- Column maximum, as in `np.max(coords, axis=0)`. -/
def colMax : List ℚ → ℚ
  | [] => 0
  | a :: rest => rest.foldl max a

/-- The per-axis extent of `_rescale_layout` (graph.py lines 298-306): the
coordinate spread, or `1.0` when the axis is degenerate. -/
def rescaleDelta (lo hi : ℚ) : ℚ := if lo = hi then 1 else hi - lo

/-- `_rescale_layout` (graph.py lines 293-313): map each axis affinely from
`[min, max]` onto `[bbox origin, bbox origin + bbox extent]`, with the
degenerate-axis guard.  The box is `(min_x, min_y, delta_x, delta_y)`. -/
def rescaleLayout (coords : List (ℚ × ℚ)) (bbox : ℚ × ℚ × ℚ × ℚ) :
    List (ℚ × ℚ) :=
  let minx := colMin (coords.map Prod.fst)
  let maxx := colMax (coords.map Prod.fst)
  let miny := colMin (coords.map Prod.snd)
  let maxy := colMax (coords.map Prod.snd)
  let dx := rescaleDelta minx maxx
  let dy := rescaleDelta miny maxy
  coords.map (fun p =>
    ((p.1 - minx) / dx * bbox.2.2.1 + bbox.1,
     (p.2 - miny) / dy * bbox.2.2.2 + bbox.2.1))

/-! ## The import guards of the optional packing strategies -/

/-- The `ImportError` message of `_bbox_rpack` (graph.py lines 196-200),
concatenated exactly as in the source. -/
def rpackImportErrorMsg : String :=
  "Using the \x27components layout\x27 requires the installation of the `rectangle-packer`. You can install it with `pip install rectangle-packer`."

/-- The `ImportError` message of `_bbox_squarify` (graph.py lines 232-236),
concatenated exactly as in the source (including the missing space in
"installationof" and the absent final period). -/
def squarifyImportErrorMsg : String :=
  "Using the \x27components layout\x27 requires the installationof the `squarify` package. You can install it with `pip install squarify`"

/-- `_bbox_rpack`'s import guard (graph.py lines 193-200): `available` models
whether the `rpack` module can be imported. -/
def bboxRpackChecked (available : Bool) (fp : Nat → ℚ)
    (componentSizes : List Nat) (padx pady : ℚ)
    (pack : List (ℤ × ℤ) → List (ℤ × ℤ)) :
    Except String (List (ℚ × ℚ × ℚ × ℚ)) :=
  if available then .ok (bboxRpack fp componentSizes padx pady pack)
  else .error rpackImportErrorMsg

/-- `_bbox_squarify`'s import guard (graph.py lines 229-236); the treemap
computation itself lives in the external `squarify` capability and only the
guard is subject to a claim. -/
def bboxSquarifyChecked (available : Bool) : Except String Unit :=
  if available then .ok () else .error squarifyImportErrorMsg

/-- Containment of a character sequence in another. -/
def charsContain : List Char → List Char → Bool
  | needle, [] => needle.isEmpty
  | needle, c :: rest => needle.isPrefixOf (c :: rest) || charsContain needle rest

/-- Whether `needle` occurs as a substring of `msg`. -/
def msgContains (needle msg : String) : Bool :=
  charsContain needle.toList msg.toList

instance (r1 r2 : (ℤ × ℤ) × (ℤ × ℤ)) : Decidable (rectsDisjoint r1 r2) := by
  unfold rectsDisjoint; infer_instance

instance (dims origins : List (ℤ × ℤ)) : Decidable (ValidPacking dims origins) := by
  unfold ValidPacking; infer_instance

instance (b1 b2 : ℚ × ℚ × ℚ × ℚ) : Decidable (boxesOverlap b1 b2) := by
  unfold boxesOverlap; infer_instance

instance (sorter keys : List Nat) : Decidable (IsArgsortOf sorter keys) := by
  unfold IsArgsortOf; infer_instance

/-! ## Helper lemmas on lists -/

theorem getD_map_rows (f : List (Nat × ℚ) → List (Nat × ℚ)) (hf : f [] = [])
    (rows : List (List (Nat × ℚ))) (r : Nat) :
    (rows.map f).getD r [] = f (rows.getD r []) := by
  induction rows generalizing r with
  | nil => simp [hf]
  | cons a l ih =>
    cases r with
    | zero => simp
    | succ r => simpa using ih r

theorem mem_data_iff (m : CsrMatrix) (c : ℚ) :
    c ∈ m.data ↔ ∃ row ∈ m.rows, ∃ col, (col, c) ∈ row := by
  simp only [CsrMatrix.data, List.mem_flatten, List.mem_map]
  constructor
  · rintro ⟨l, ⟨row, hrow, rfl⟩, hc⟩
    obtain ⟨⟨col, v⟩, hcv, hv⟩ := List.mem_map.mp hc
    have hv2 : v = c := hv
    subst hv2
    exact ⟨row, hrow, col, hcv⟩
  · rintro ⟨row, hrow, col, hcv⟩
    exact ⟨row.map Prod.snd, ⟨row, hrow, rfl⟩, List.mem_map.mpr ⟨(col, c), hcv, rfl⟩⟩

theorem mem_conv_row_iff (M : ℚ) (rows : List (List (Nat × ℚ))) (r col : Nat) (c : ℚ) :
    (col, c) ∈ (eliminateZeros (mapConnectivityData M rows)).getD r [] ↔
      c ≠ 0 ∧ ∃ v, (col, v) ∈ rows.getD r [] ∧ c = (M - (v - 1)) / M := by
  rw [eliminateZeros, getD_map_rows _ rfl, mapConnectivityData, getD_map_rows _ rfl]
  simp only [List.mem_filter, List.mem_map, bne_iff_ne, ne_eq]
  constructor
  · rintro ⟨⟨⟨col2, v⟩, hv, heq⟩, hne⟩
    obtain ⟨h1, h2⟩ := Prod.mk.injEq .. ▸ heq
    exact ⟨by simpa using hne, v, by simpa [← h1] using hv, h2.symm⟩
  · rintro ⟨hne, v, hv, rfl⟩
    exact ⟨⟨(col, v), hv, rfl⟩, by simpa using hne⟩

theorem init_le_foldl_max (l : List ℚ) (a : ℚ) : a ≤ l.foldl max a := by
  induction l generalizing a with
  | nil => exact le_refl a
  | cons x l ih => exact le_trans (le_max_left a x) (ih (max a x))

theorem mem_le_foldl_max (l : List ℚ) (a v : ℚ) (hv : v ∈ l) : v ≤ l.foldl max a := by
  induction l generalizing a with
  | nil => cases hv
  | cons x l ih =>
    rcases List.mem_cons.mp hv with rfl | hv2
    · exact le_trans (le_max_right a v) (init_le_foldl_max l (max a v))
    · exact ih (max a x) hv2

theorem le_maxData (l : List ℚ) (v : ℚ) (hv : v ∈ l) : v ≤ maxData l := by
  cases l with
  | nil => cases hv
  | cons a rest =>
    rcases List.mem_cons.mp hv with rfl | hv2
    · exact init_le_foldl_max rest v
    · exact mem_le_foldl_max rest a v hv2

theorem le_spMax (m : CsrMatrix) (v : ℚ) (hv : v ∈ m.data) : v ≤ spMax m := by
  have hmax := le_maxData m.data v hv
  have hne : m.nnz ≠ 0 := by
    intro h0
    rw [CsrMatrix.nnz, List.length_eq_zero] at h0
    rw [h0] at hv
    cases hv
  unfold spMax
  rw [if_neg hne]
  split
  · exact le_trans hmax (le_max_left _ _)
  · exact hmax

theorem mem_conv_data_iff (m : CsrMatrix) (M : ℚ) (c : ℚ) :
    c ∈ (distanceToConnectivity m (some M)).data ↔
      c ≠ 0 ∧ ∃ v ∈ m.data, c = (M - (v - 1)) / M := by
  rw [mem_data_iff]
  constructor
  · rintro ⟨row1, hrow1, col, hmem⟩
    have hrow2 := hrow1
    rw [show (distanceToConnectivity m (some M)).rows
        = eliminateZeros (mapConnectivityData M m.rows) from rfl] at hrow2
    rw [eliminateZeros] at hrow2
    obtain ⟨row3, hrow3, rfl⟩ := List.mem_map.mp hrow2
    rw [mapConnectivityData] at hrow3
    obtain ⟨row, hrow, rfl⟩ := List.mem_map.mp hrow3
    obtain ⟨hmem2, hne⟩ := List.mem_filter.mp hmem
    obtain ⟨⟨col2, v⟩, hv, heq⟩ := List.mem_map.mp hmem2
    have hc : (M - (v - 1)) / M = c := congrArg Prod.snd heq
    refine ⟨by simpa using hne, v, (mem_data_iff m v).mpr ⟨row, hrow, col2, hv⟩, hc.symm⟩
  · rintro ⟨hne, v, hvdata, rfl⟩
    obtain ⟨row, hrow, col2, hv⟩ := (mem_data_iff m v).mp hvdata
    refine ⟨(List.map (fun cv => (cv.1, (M - (cv.2 - 1)) / M)) row).filter
        (fun cv => cv.2 != 0), ?_, col2, ?_⟩
    · rw [show (distanceToConnectivity m (some M)).rows
          = eliminateZeros (mapConnectivityData M m.rows) from rfl, eliminateZeros]
      exact List.mem_map.mpr ⟨_, List.mem_map.mpr ⟨row, hrow, rfl⟩, rfl⟩
    · exact List.mem_filter.mpr ⟨List.mem_map.mpr ⟨(col2, v), hv, rfl⟩, by simpa using hne⟩

/-- Claim C2 (counterexample): with the explicit `max_value = 2`, the stored
distance `5` maps to the connectivity `(2 - (5 - 1)) / 2 = -1 ≤ 0`, yet the
entry REMAINS stored in the result's sparse structure: `eliminate_zeros`
removes only exact zeros, not negative connectivities. -/
theorem c2_claim_counterexample :
    ((1 : Nat), (-1 : ℚ)) ∈
      (distanceToConnectivity ⟨2, [[(1, 5)], []]⟩ (some 2)).rows.getD 0 [] ∧
    ((-1 : ℚ) = (2 - (5 - 1)) / 2 ∧ (-1 : ℚ) ≤ 0) := by
  refine ⟨?_, by norm_num⟩
  simp [distanceToConnectivity, eliminateZeros, mapConnectivityData]
  norm_num

/-- Claim C2 (amended): for a CSR distance matrix and an explicit nonzero
`max_value`, the result stores the entry `(col, c)` in row `r` exactly when
some stored input entry `(col, v)` of row `r` satisfies
`c = (max_value - (v - 1)) / max_value` and `c ≠ 0`: every stored value is
mapped by the conversion formula, and exactly the entries whose connectivity
is ZERO (not: at most zero) are removed from the sparse structure. -/
theorem c2_amended_connectivity_structure (m : CsrMatrix) (M : ℚ) (_hM : M ≠ 0)
    (r col : Nat) (c : ℚ) :
    (col, c) ∈ (distanceToConnectivity m (some M)).rows.getD r [] ↔
      c ≠ 0 ∧ ∃ v, (col, v) ∈ m.rows.getD r [] ∧ c = (M - (v - 1)) / M := by
  have h := mem_conv_row_iff M m.rows r col c
  simpa [distanceToConnectivity] using h

theorem c2_amended_connectivity_structure_witness :
    ((3 : ℚ) ≠ 0) ∧
    (((2 : Nat), (2/3 : ℚ)) ∈
        (distanceToConnectivity ⟨4, [[(1, 1), (2, 2)], [(0, 1)], [(0, 2), (3, 3)], [(2, 3)]]⟩
          (some 3)).rows.getD 0 [] ↔
      (2/3 : ℚ) ≠ 0 ∧ ∃ v, ((2 : Nat), v) ∈
          (CsrMatrix.mk 4 [[(1, 1), (2, 2)], [(0, 1)], [(0, 2), (3, 3)], [(2, 3)]]).rows.getD 0 []
        ∧ (2/3 : ℚ) = (3 - (v - 1)) / 3) :=
  ⟨by norm_num,
    c2_amended_connectivity_structure
      ⟨4, [[(1, 1), (2, 2)], [(0, 1)], [(0, 2), (3, 3)], [(2, 3)]]⟩ 3 (by norm_num) 0 2 (2/3)⟩

/-- Claim C5 (counterexample): with the explicit `max_value = 1`, the stored
distance `3` yields the connectivity `-1`, which is RETAINED in the result
(`eliminate_zeros` drops only exact zeros), so not all retained connectivity
values lie in `(0, 1]`. -/
theorem c5_claim_counterexample :
    (-1 : ℚ) ∈ (distanceToConnectivity ⟨2, [[(1, 3)], []]⟩ (some 1)).data ∧
    ¬(0 < (-1 : ℚ) ∧ (-1 : ℚ) ≤ 1) := by
  refine ⟨?_, by norm_num⟩
  simp [distanceToConnectivity, eliminateZeros, mapConnectivityData, CsrMatrix.data]
  norm_num

/-- Claim C5 (amended): the retained connectivity values lie in `(0, 1]`
PROVIDED the stored distances `v` satisfy `1 ≤ v ≤ max_value + 1` and
`max_value > 0`; in particular this holds for the defaulted
`max_value = np.max(distances)` whenever all stored values are at least `1`.
For an explicit `max_value` smaller than `v - 1` the claim fails (negative
connectivities are retained). -/
theorem c5_amended_retained_in_unit_interval (m : CsrMatrix) :
    (∀ M : ℚ, 0 < M → (∀ v ∈ m.data, 1 ≤ v ∧ v ≤ M + 1) →
      ∀ c ∈ (distanceToConnectivity m (some M)).data, 0 < c ∧ c ≤ 1) ∧
    ((∀ v ∈ m.data, 1 ≤ v) → m.data ≠ [] →
      ∀ c ∈ (distanceToConnectivity m none).data, 0 < c ∧ c ≤ 1) := by
  have part1 : ∀ M : ℚ, 0 < M → (∀ v ∈ m.data, 1 ≤ v ∧ v ≤ M + 1) →
      ∀ c ∈ (distanceToConnectivity m (some M)).data, 0 < c ∧ c ≤ 1 := by
    intro M hM hvals c hc
    obtain ⟨hne, v, hv, rfl⟩ := (mem_conv_data_iff m M c).mp hc
    obtain ⟨h1, h2⟩ := hvals v hv
    have hnum : (0 : ℚ) ≤ M - (v - 1) := by linarith
    have hge : (0 : ℚ) ≤ (M - (v - 1)) / M := div_nonneg hnum (le_of_lt hM)
    refine ⟨lt_of_le_of_ne hge (Ne.symm hne), ?_⟩
    rw [div_le_one hM]
    linarith
  refine ⟨part1, fun hvals hne c hc => ?_⟩
  have hd : distanceToConnectivity m none = distanceToConnectivity m (some (spMax m)) := rfl
  rw [hd] at hc
  obtain ⟨v0, hv0⟩ := List.exists_mem_of_ne_nil m.data hne
  have hM : 0 < spMax m := lt_of_lt_of_le (by linarith [hvals v0 hv0]) (le_spMax m v0 hv0)
  exact part1 (spMax m) hM
    (fun v hv => ⟨(hvals v hv), by linarith [le_spMax m v hv]⟩) c hc

theorem c5_amended_retained_in_unit_interval_witness :
    (∀ c ∈ (distanceToConnectivity
        ⟨4, [[(1, 1), (2, 2)], [(0, 1)], [(0, 2), (3, 3)], [(2, 3)]]⟩ (some 3)).data,
      0 < c ∧ c ≤ 1) ∧
    (∀ c ∈ (distanceToConnectivity
        ⟨4, [[(1, 1), (2, 2)], [(0, 1)], [(0, 2), (3, 3)], [(2, 3)]]⟩ none).data,
      0 < c ∧ c ≤ 1) :=
  ⟨(c5_amended_retained_in_unit_interval
      ⟨4, [[(1, 1), (2, 2)], [(0, 1)], [(0, 2), (3, 3)], [(2, 3)]]⟩).1 3
      (by norm_num) (by norm_num [CsrMatrix.data]),
   (c5_amended_retained_in_unit_interval
      ⟨4, [[(1, 1), (2, 2)], [(0, 1)], [(0, 2), (3, 3)], [(2, 3)]]⟩).2
      (by norm_num [CsrMatrix.data]) (by simp [CsrMatrix.data])⟩

/-- Claim C7 (counterexample): a COO matrix is not in CSR layout, yet
`igraph_from_sparse_matrix` with `matrix_type="distance"` succeeds on it:
line 35 (`matrix = matrix.tocsr()`) converts every sparse layout to CSR
before the distance branch, so the format error is never raised by this
entry point. -/
theorem c7_claim_counterexample :
    (SparseMat.coo ⟨2, [[(1, 2)], [(0, 2)]]⟩).isCsrFormat = false ∧
    (igraphFromSparseMatrix (SparseMat.coo ⟨2, [[(1, 2)], [(0, 2)]]⟩)
      MatrixType.distance (some 2)).isOk = true :=
  ⟨rfl, rfl⟩

/-- Claim C7 (amended): `igraph_from_sparse_matrix` with
`matrix_type="distance"` never fails with the format error — it silently
accepts any sparse layout by converting it with `.tocsr()` first; only the
inner `_distance_to_connectivity`, when handed a non-CSR matrix directly,
raises `ValueError("Distance matrix must be in CSR format.")`. -/
theorem c7_amended_entry_point_never_format_error :
    (∀ (m : SparseMat) (mv : Option ℚ),
      (igraphFromSparseMatrix m MatrixType.distance mv).isOk = true) ∧
    (∀ (m : SparseMat) (mv : Option ℚ), m.isCsrFormat = false →
      distanceToConnectivityChecked m mv = Except.error csrFormatError) := by
  constructor
  · intro m mv
    cases m <;> rfl
  · intro m mv h
    cases m with
    | csr m => simp [SparseMat.isCsrFormat] at h
    | csc m => rfl
    | coo m => rfl

theorem c7_amended_entry_point_never_format_error_witness :
    (igraphFromSparseMatrix (SparseMat.csc ⟨1, [[]]⟩) MatrixType.distance none).isOk = true ∧
    distanceToConnectivityChecked (SparseMat.csc ⟨1, [[]]⟩) none
      = Except.error csrFormatError :=
  ⟨c7_amended_entry_point_never_format_error.1 (SparseMat.csc ⟨1, [[]]⟩) none,
   c7_amended_entry_point_never_format_error.2 (SparseMat.csc ⟨1, [[]]⟩) none rfl⟩

/-- Claim C9 (counterexample): when the `rectangle-packer` capability is
missing, `_bbox_rpack` raises an `ImportError` whose message does NOT contain
the requested strategy name "rpack" anywhere (it speaks of the "components
layout"), so the error does not identify the requested strategy. -/
theorem c9_claim_counterexample :
    bboxRpackChecked false fpPow08 [1] 1 1 packWide
      = Except.error rpackImportErrorMsg ∧
    msgContains "rpack" rpackImportErrorMsg = false :=
  ⟨rfl, by decide⟩

/-- Claim C9 (amended): a missing packing capability produces an explicit
`ImportError` (not a generic crash) whose message names the missing package
and the exact pip command to install it; the squarify message happens to
contain the strategy name "squarify" (as the package name), but the rpack
message does not name the "rpack" strategy. -/
theorem c9_amended_import_errors :
    (∀ (fp : Nat → ℚ) (sizes : List Nat) (px py : ℚ)
        (pack : List (ℤ × ℤ) → List (ℤ × ℤ)),
      bboxRpackChecked false fp sizes px py pack
        = Except.error rpackImportErrorMsg) ∧
    bboxSquarifyChecked false = Except.error squarifyImportErrorMsg ∧
    msgContains "rectangle-packer" rpackImportErrorMsg = true ∧
    msgContains "pip install rectangle-packer" rpackImportErrorMsg = true ∧
    msgContains "squarify" squarifyImportErrorMsg = true ∧
    msgContains "pip install squarify" squarifyImportErrorMsg = true :=
  ⟨fun _ _ _ _ _ => rfl, rfl, by decide, by decide, by decide, by decide⟩

/-- Claim C10: `_distance_to_connectivity` never mutates its input.  In the
heap model, running the conversion on the matrix behind reference `r` leaves
the matrix behind `r` exactly as it was (the data assignment and
`eliminate_zeros` hit only the freshly allocated copy), and the returned
reference is distinct from `r`. -/
theorem c10_no_input_mutation (st : MatStore) (r : Nat) (mv : Option ℚ)
    (h : r < st.length) :
    storeGet (distanceToConnectivityProc st r mv).1 r = storeGet st r ∧
    (distanceToConnectivityProc st r mv).2 ≠ r := by
  have hne : st.length ≠ r := ne_of_gt h
  constructor
  · unfold distanceToConnectivityProc storeGet storeSet
    rw [List.getD_eq_getElem?_getD, List.getElem?_set_ne hne,
      List.getElem?_set_ne hne, ← List.getD_eq_getElem?_getD]
    exact List.getD_append _ _ _ _ h
  · exact hne

theorem c10_no_input_mutation_witness :
    storeGet (distanceToConnectivityProc [⟨2, [[(1, 5)], []]⟩] 0 (some 2)).1 0
      = storeGet [⟨2, [[(1, 5)], []]⟩] 0 ∧
    (distanceToConnectivityProc [⟨2, [[(1, 5)], []]⟩] 0 (some 2)).2 ≠ 0 :=
  c10_no_input_mutation [⟨2, [[(1, 5)], []]⟩] 0 (some 2) (by decide)

/-! ## The shelf-sort ("size") strategy -/

theorem bboxSortedGo_cons (fp : Nat → ℚ) (px py x y : ℚ) (c n : Nat)
    (rest : List Nat) :
    bboxSortedGo fp px py x y c (n :: rest) =
      (if n = c then ((x, y, fp n, fp n) : ℚ × ℚ × ℚ × ℚ)
        else (0, y + fp n + py, fp n, fp n)) ::
        bboxSortedGo fp px py ((if n = c then x else 0) + fp n + px)
          (if n = c then y else y + fp n + py) n rest := by
  by_cases h : n = c
  · subst h
    simp [bboxSortedGo, getBboxDimensions]
  · simp [bboxSortedGo, getBboxDimensions, h]

theorem bboxSortedGo_length (sizes : List Nat) : ∀ (fp : Nat → ℚ) (px py x y : ℚ)
    (c : Nat), (bboxSortedGo fp px py x y c sizes).length = sizes.length := by
  induction sizes with
  | nil => intro fp px py x y c; rfl
  | cons n rest ih =>
    intro fp px py x y c
    rw [bboxSortedGo_cons]
    simp [ih]

theorem bboxSortedGo_dims (sizes : List Nat) : ∀ (fp : Nat → ℚ) (px py x y : ℚ)
    (c i : Nat), i < sizes.length →
    ((bboxSortedGo fp px py x y c sizes).getD i (0, 0, 0, 0)).2.2
      = (fp (sizes.getD i 0), fp (sizes.getD i 0)) := by
  induction sizes with
  | nil => intro fp px py x y c i hi; cases hi
  | cons n rest ih =>
    intro fp px py x y c i hi
    rw [bboxSortedGo_cons]
    cases i with
    | zero => by_cases h : n = c <;> simp [h]
    | succ j =>
      simp only [List.getD_cons_succ]
      exact ih fp px py _ _ n j (by simpa using hi)

theorem bboxSortedGo_step (sizes : List Nat) : ∀ (fp : Nat → ℚ) (px py x y : ℚ)
    (c i : Nat), i + 1 < sizes.length →
    (sizes.getD (i + 1) 0 = sizes.getD i 0 →
      ((bboxSortedGo fp px py x y c sizes).getD (i + 1) (0, 0, 0, 0)).1
        = ((bboxSortedGo fp px py x y c sizes).getD i (0, 0, 0, 0)).1
          + fp (sizes.getD i 0) + px ∧
      ((bboxSortedGo fp px py x y c sizes).getD (i + 1) (0, 0, 0, 0)).2.1
        = ((bboxSortedGo fp px py x y c sizes).getD i (0, 0, 0, 0)).2.1) ∧
    (sizes.getD (i + 1) 0 ≠ sizes.getD i 0 →
      ((bboxSortedGo fp px py x y c sizes).getD (i + 1) (0, 0, 0, 0)).1 = 0 ∧
      ((bboxSortedGo fp px py x y c sizes).getD (i + 1) (0, 0, 0, 0)).2.1
        = ((bboxSortedGo fp px py x y c sizes).getD i (0, 0, 0, 0)).2.1
          + fp (sizes.getD (i + 1) 0) + py) := by
  induction sizes with
  | nil => intro fp px py x y c i hi; cases hi
  | cons n rest ih =>
    intro fp px py x y c i hi
    cases i with
    | zero =>
      obtain ⟨m, rest2, rfl⟩ : ∃ m rest2, rest = m :: rest2 := by
        cases rest with
        | nil => exact absurd hi (by simp)
        | cons m rest2 => exact ⟨m, rest2, rfl⟩
      rw [bboxSortedGo_cons, bboxSortedGo_cons]
      by_cases hm : m = n
      · by_cases hc : n = c
        · have hmc : m = c := hm.trans hc
          simp [hm, hc, hmc]
        · have hmc : ¬m = c := fun h => hc (hm.symm.trans h)
          simp [hm, hc, hmc]
      · by_cases hc : n = c
        · have hmc : ¬m = c := fun h => hm (h.trans hc.symm)
          simp [hm, hc, hmc]
        · simp [hm, hc]
    | succ j =>
      rw [bboxSortedGo_cons]
      simp only [List.getD_cons_succ]
      exact ih fp px py _ _ n j (by simpa using hi)

/-- Claim C6 (counterexample): for the ascending sizes `[1, 32]` with
`pad_y = 1` the second component starts a new row, and the code places it at
`y = 16 + 1 = 17` — it advances `y` by the NEW component's own height
`32 ** 0.8 = 16` plus the padding, not by the height `1` of the row being
closed (which would give `y = 1 + 1 = 2` as the claim's `row_height + pad_y`
reading states). -/
theorem c6_claim_counterexample :
    bboxSorted fpPow08 [1, 32] 1 1 = [(0, 0, 1, 1), (0, 17, 16, 16)] ∧
    (17 : ℚ) ≠ 0 + 1 + 1 := by
  constructor
  · simp [bboxSorted, bboxSortedGo, getBboxDimensions, fpPow08]
    norm_num
  · norm_num

/-- Claim C6 (amended): the "size" strategy assigns component `i` the
footprint `(fp n_i, fp n_i)` where `fp` is the float power `n ** 0.8`; for
consecutive components, when the sizes are equal the next box stays on the
row with `x` advanced by `width + pad_x` and the same `y`; when they differ a
new row starts at `x = 0` with `y` advanced by the NEW component's height
plus `pad_y` (not by the height of the row being closed). -/
theorem c6_amended_shelf_layout (fp : Nat → ℚ) (sizes : List Nat) (px py : ℚ) :
    ((bboxSorted fp sizes px py).length = sizes.length) ∧
    (∀ i, i < sizes.length →
      ((bboxSorted fp sizes px py).getD i (0, 0, 0, 0)).2.2
        = (fp (sizes.getD i 0), fp (sizes.getD i 0))) ∧
    (∀ i, i + 1 < sizes.length →
      (sizes.getD (i + 1) 0 = sizes.getD i 0 →
        ((bboxSorted fp sizes px py).getD (i + 1) (0, 0, 0, 0)).1
          = ((bboxSorted fp sizes px py).getD i (0, 0, 0, 0)).1
            + fp (sizes.getD i 0) + px ∧
        ((bboxSorted fp sizes px py).getD (i + 1) (0, 0, 0, 0)).2.1
          = ((bboxSorted fp sizes px py).getD i (0, 0, 0, 0)).2.1) ∧
      (sizes.getD (i + 1) 0 ≠ sizes.getD i 0 →
        ((bboxSorted fp sizes px py).getD (i + 1) (0, 0, 0, 0)).1 = 0 ∧
        ((bboxSorted fp sizes px py).getD (i + 1) (0, 0, 0, 0)).2.1
          = ((bboxSorted fp sizes px py).getD i (0, 0, 0, 0)).2.1
            + fp (sizes.getD (i + 1) 0) + py)) :=
  ⟨bboxSortedGo_length sizes fp px py 0 0 1,
   fun i hi => bboxSortedGo_dims sizes fp px py 0 0 1 i hi,
   fun i hi => bboxSortedGo_step sizes fp px py 0 0 1 i hi⟩

theorem c6_amended_shelf_layout_witness :
    ((bboxSorted fpPow08 [1, 32] 1 1).getD 0 (0, 0, 0, 0)).2.2
      = (fpPow08 1, fpPow08 1) ∧
    ((bboxSorted fpPow08 [1, 32] 1 1).getD 1 (0, 0, 0, 0)).1 = 0 ∧
    ((bboxSorted fpPow08 [1, 32] 1 1).getD 1 (0, 0, 0, 0)).2.1
      = ((bboxSorted fpPow08 [1, 32] 1 1).getD 0 (0, 0, 0, 0)).2.1
        + fpPow08 ([1, 32].getD 1 0) + 1 :=
  ⟨(c6_amended_shelf_layout fpPow08 [1, 32] 1 1).2.1 0 (by norm_num),
   ((c6_amended_shelf_layout fpPow08 [1, 32] 1 1).2.2 0 (by norm_num)).2 (by decide) |>.1,
   ((c6_amended_shelf_layout fpPow08 [1, 32] 1 1).2.2 0 (by norm_num)).2 (by decide) |>.2⟩

/-! ## Rescale: degenerate-extent guard -/

/-- Claim C8: `_rescale_layout` maps each axis independently by
`new = (old - min) / extent * bbox_extent + bbox_origin`, where the extent is
`max - min` of the raw coordinates on that axis but `1.0` whenever
`min = max`, and the divisor is never zero. -/
theorem c8_rescale_no_div_zero (coords : List (ℚ × ℚ)) (bbox : ℚ × ℚ × ℚ × ℚ) :
    (colMin (coords.map Prod.fst) = colMax (coords.map Prod.fst) →
      rescaleDelta (colMin (coords.map Prod.fst)) (colMax (coords.map Prod.fst)) = 1) ∧
    (colMin (coords.map Prod.fst) ≠ colMax (coords.map Prod.fst) →
      rescaleDelta (colMin (coords.map Prod.fst)) (colMax (coords.map Prod.fst))
        = colMax (coords.map Prod.fst) - colMin (coords.map Prod.fst)) ∧
    rescaleDelta (colMin (coords.map Prod.fst)) (colMax (coords.map Prod.fst)) ≠ 0 ∧
    rescaleDelta (colMin (coords.map Prod.snd)) (colMax (coords.map Prod.snd)) ≠ 0 ∧
    (∀ i, i < coords.length →
      (rescaleLayout coords bbox).getD i (0, 0) =
        (((coords.getD i (0, 0)).1 - colMin (coords.map Prod.fst)) /
            rescaleDelta (colMin (coords.map Prod.fst)) (colMax (coords.map Prod.fst))
            * bbox.2.2.1 + bbox.1,
         ((coords.getD i (0, 0)).2 - colMin (coords.map Prod.snd)) /
            rescaleDelta (colMin (coords.map Prod.snd)) (colMax (coords.map Prod.snd))
            * bbox.2.2.2 + bbox.2.1)) := by
  have hne : ∀ lo hi : ℚ, rescaleDelta lo hi ≠ 0 := by
    intro lo hi
    unfold rescaleDelta
    split
    · exact one_ne_zero
    · exact sub_ne_zero.mpr (Ne.symm (by assumption))
  refine ⟨fun h => by simp [rescaleDelta, h], fun h => by simp [rescaleDelta, h],
    hne _ _, hne _ _, ?_⟩
  intro i hi
  have hlen : (rescaleLayout coords bbox).length = coords.length := by
    simp [rescaleLayout]
  rw [List.getD_eq_getElem _ _ (hlen ▸ hi), List.getD_eq_getElem _ _ hi]
  simp [rescaleLayout]

theorem c8_rescale_no_div_zero_witness :
    rescaleDelta (colMin ([((0 : ℚ), (0 : ℚ)), (1, 2)].map Prod.fst))
      (colMax ([((0 : ℚ), (0 : ℚ)), (1, 2)].map Prod.fst)) ≠ 0 ∧
    (rescaleLayout [((0 : ℚ), (0 : ℚ)), (1, 2)] (3, 4, 2, 2)).getD 0 (0, 0) =
      ((([((0 : ℚ), (0 : ℚ)), (1, 2)].getD 0 (0, 0)).1
          - colMin ([((0 : ℚ), (0 : ℚ)), (1, 2)].map Prod.fst)) /
          rescaleDelta (colMin ([((0 : ℚ), (0 : ℚ)), (1, 2)].map Prod.fst))
            (colMax ([((0 : ℚ), (0 : ℚ)), (1, 2)].map Prod.fst)) * 2 + 3,
       (([((0 : ℚ), (0 : ℚ)), (1, 2)].getD 0 (0, 0)).2
          - colMin ([((0 : ℚ), (0 : ℚ)), (1, 2)].map Prod.snd)) /
          rescaleDelta (colMin ([((0 : ℚ), (0 : ℚ)), (1, 2)].map Prod.snd))
            (colMax ([((0 : ℚ), (0 : ℚ)), (1, 2)].map Prod.snd)) * 2 + 4) :=
  ⟨(c8_rescale_no_div_zero [((0 : ℚ), (0 : ℚ)), (1, 2)] (3, 4, 2, 2)).2.2.1,
   (c8_rescale_no_div_zero [((0 : ℚ), (0 : ℚ)), (1, 2)] (3, 4, 2, 2)).2.2.2.2 0
     (by norm_num)⟩

/-! ## The rpack strategy: non-overlap analysis -/

theorem foldr_max_nonneg (l : List ℤ) : 0 ≤ l.foldr max 0 := by
  induction l with
  | nil => exact le_refl 0
  | cons x rest ih => exact le_trans ih (le_max_right x _)

theorem enclosingSize_nonneg (dims origins : List (ℤ × ℤ)) :
    0 ≤ (enclosingSize dims origins).1 ∧ 0 ≤ (enclosingSize dims origins).2 :=
  ⟨foldr_max_nonneg _, foldr_max_nonneg _⟩

theorem rpack_boxes_disjoint (dims origins : List (ℤ × ℤ)) (px py sx sy : ℚ)
    (hdims : ∀ wh ∈ dims, (0 : ℤ) ≤ wh.1 ∧ (0 : ℤ) ≤ wh.2)
    (hsx1 : sx ≤ 1) (hsy1 : sy ≤ 1) (hpx : 0 ≤ px) (hpy : 0 ≤ py)
    (hpair : (origins.zip dims).Pairwise rectsDisjoint) :
    (((origins.zip dims).map (fun od =>
      ((od.1.1 : ℚ), (od.1.2 : ℚ),
        (od.2.1 : ℚ) * sx - px, (od.2.2 : ℚ) * sy - py))).reverse).Pairwise
      (fun b1 b2 => ¬boxesOverlap b1 b2) := by
  rw [List.pairwise_reverse, List.pairwise_map]
  refine hpair.imp_of_mem ?_
  intro a b ha hb hd
  have hda := (List.of_mem_zip ha).2
  have hdb := (List.of_mem_zip hb).2
  obtain ⟨hwa, hha⟩ := hdims a.2 hda
  obtain ⟨hwb, hhb⟩ := hdims b.2 hdb
  have hwa' : (0 : ℚ) ≤ (a.2.1 : ℚ) := by exact_mod_cast hwa
  have hha' : (0 : ℚ) ≤ (a.2.2 : ℚ) := by exact_mod_cast hha
  have hwb' : (0 : ℚ) ≤ (b.2.1 : ℚ) := by exact_mod_cast hwb
  have hhb' : (0 : ℚ) ≤ (b.2.2 : ℚ) := by exact_mod_cast hhb
  have hwsa : (a.2.1 : ℚ) * sx ≤ (a.2.1 : ℚ) := mul_le_of_le_one_right hwa' hsx1
  have hwsb : (b.2.1 : ℚ) * sx ≤ (b.2.1 : ℚ) := mul_le_of_le_one_right hwb' hsx1
  have hhsa : (a.2.2 : ℚ) * sy ≤ (a.2.2 : ℚ) := mul_le_of_le_one_right hha' hsy1
  have hhsb : (b.2.2 : ℚ) * sy ≤ (b.2.2 : ℚ) := mul_le_of_le_one_right hhb' hsy1
  rintro hov
  obtain ⟨o1, o2, o3, o4⟩ := hov
  dsimp only at o1 o2 o3 o4
  unfold rectsDisjoint at hd
  rcases hd with hsep | hsep | hsep | hsep
  · have hsep2 : (a.1.1 : ℚ) + (a.2.1 : ℚ) ≤ (b.1.1 : ℚ) := by exact_mod_cast hsep
    linarith
  · have hsep2 : (b.1.1 : ℚ) + (b.2.1 : ℚ) ≤ (a.1.1 : ℚ) := by exact_mod_cast hsep
    linarith
  · have hsep2 : (a.1.2 : ℚ) + (a.2.2 : ℚ) ≤ (b.1.2 : ℚ) := by exact_mod_cast hsep
    linarith
  · have hsep2 : (b.1.2 : ℚ) + (b.2.2 : ℚ) ≤ (a.1.2 : ℚ) := by exact_mod_cast hsep
    linarith

/-- Claim C3 (counterexample): for the component sizes `[1, 1, 32, 32]` with
unit padding, the packer placement `packWide` is a conforming packing (the
padded integer footprints are pairwise disjoint), yet after the aspect-ratio
rescale — which scales the box SIZES by `36/17` on the y-axis but leaves the
packed ORIGINS untouched — the two boxes of the size-1 components overlap. -/
theorem c3_claim_counterexample :
    ValidPacking [(17, 17), (17, 17), (2, 2), (2, 2)]
      (packWide [(17, 17), (17, 17), (2, 2), (2, 2)]) ∧
    ([1, 1, 32, 32].map (getBboxDimensions fpPow08)).reverse.map
      (fun wh => (pyInt (wh.1 + 1), pyInt (wh.2 + 1)))
      = [(17, 17), (17, 17), (2, 2), (2, 2)] ∧
    boxesOverlap ((bboxRpack fpPow08 [1, 1, 32, 32] 1 1 packWide).getD 0 (0, 0, 0, 0))
      ((bboxRpack fpPow08 [1, 1, 32, 32] 1 1 packWide).getD 1 (0, 0, 0, 0)) := by
  refine ⟨by decide, ?_, ?_⟩
  · simp [getBboxDimensions, fpPow08, pyInt]
    norm_num
  · have h : bboxRpack fpPow08 [1, 1, 32, 32] 1 1 packWide
        = [(34, 2, 1, 55/17), (34, 0, 1, 55/17), (17, 0, 16, 35), (0, 0, 16, 35)] := by
      simp [bboxRpack, getBboxDimensions, fpPow08, pyInt, enclosingSize, packWide]
      norm_num
    rw [h]
    simp [boxesOverlap]
    norm_num

/-- Claim C3 (amended): before the rescale the packed integer rectangles are
pairwise non-overlapping (the packer's contract), and the assigned bounding
boxes are pairwise non-overlapping whenever the enclosing rectangle of the
packing is at least as tall as it is wide (aspect ratio at most 1, in
particular a square enclosure): then both scale factors are at most one and
every box stays inside its packed rectangle.  When the enclosure is wider
than tall, the scale-up of the box heights without moving the origins can
make boxes overlap. -/
theorem c3_amended_nonoverlap_when_aspect_le_one (fp : Nat → ℚ)
    (sizes : List Nat) (px py : ℚ) (pack : List (ℤ × ℤ) → List (ℤ × ℤ))
    (hfp : ∀ n, 0 ≤ fp n) (hpx : 0 ≤ px) (hpy : 0 ≤ py) :
    ∀ dims, dims = (sizes.map (getBboxDimensions fp)).reverse.map
        (fun wh => (pyInt (wh.1 + px), pyInt (wh.2 + py))) →
      ValidPacking dims (pack dims) →
      (enclosingSize dims (pack dims)).1 ≤ (enclosingSize dims (pack dims)).2 →
      (bboxRpack fp sizes px py pack).Pairwise (fun b1 b2 => ¬boxesOverlap b1 b2) := by
  intro dims hdims_eq hpack hsq
  have hdims_nonneg : ∀ wh ∈ dims, (0 : ℤ) ≤ wh.1 ∧ (0 : ℤ) ≤ wh.2 := by
    intro wh hwh
    rw [hdims_eq] at hwh
    obtain ⟨a, ha, rfl⟩ := List.mem_map.mp hwh
    obtain ⟨n, hn, rfl⟩ := List.mem_map.mp (List.mem_reverse.mp ha)
    have h1 : (0 : ℚ) ≤ fp n + px := add_nonneg (hfp n) hpx
    have h2 : (0 : ℚ) ≤ fp n + py := add_nonneg (hfp n) hpy
    constructor
    · show (0 : ℤ) ≤ pyInt ((getBboxDimensions fp n).1 + px)
      rw [getBboxDimensions, pyInt, if_pos h1]
      exact Int.floor_nonneg.mpr h1
    · show (0 : ℤ) ≤ pyInt ((getBboxDimensions fp n).2 + py)
      rw [getBboxDimensions, pyInt, if_pos h2]
      exact Int.floor_nonneg.mpr h2
  have houter2 : (0 : ℤ) ≤ (enclosingSize dims (pack dims)).2 :=
    (enclosingSize_nonneg dims (pack dims)).2
  have haspect : ((enclosingSize dims (pack dims)).1 : ℚ)
      / ((enclosingSize dims (pack dims)).2 : ℚ) ≤ 1 := by
    rcases lt_or_eq_of_le houter2 with hpos | hzero
    · have hpos' : (0 : ℚ) < ((enclosingSize dims (pack dims)).2 : ℚ) := by
        exact_mod_cast hpos
      rw [div_le_one hpos']
      exact_mod_cast hsq
    · rw [← hzero]
      simp
  have hbranch : ¬(1 < ((enclosingSize dims (pack dims)).1 : ℚ)
      / ((enclosingSize dims (pack dims)).2 : ℚ)) := not_lt.mpr haspect
  rw [bboxRpack, ← hdims_eq]
  simp only [if_neg hbranch]
  exact rpack_boxes_disjoint dims (pack dims) px py _ 1 hdims_nonneg haspect
    (le_refl 1) hpx hpy hpack.2

theorem c3_amended_nonoverlap_when_aspect_le_one_witness :
    (bboxRpack fpPow08 [1, 1, 1, 1] 1 1 packSquare).Pairwise
      (fun b1 b2 => ¬boxesOverlap b1 b2) :=
  c3_amended_nonoverlap_when_aspect_le_one fpPow08 [1, 1, 1, 1] 1 1 packSquare
    (fun n => by simp only [fpPow08]; split <;> norm_num)
    (by norm_num) (by norm_num)
    [(2, 2), (2, 2), (2, 2), (2, 2)]
    (by simp [getBboxDimensions, fpPow08, pyInt])
    (by decide) (by decide)

/-! ## layout_components: reassembly by argsort of the vertex ids -/

theorem map_getD_range {α : Type} (l : List α) (d : α) :
    (List.range l.length).map (fun i => l.getD i d) = l := by
  apply List.ext_getElem
  · simp
  · intro i h1 h2
    simp [List.getD_eq_getElem?_getD, List.getElem?_eq_getElem h2]

theorem flatten_getD {α : Type} (ls : List (List α)) (d : α) :
    ∀ p li, p < ls.length → li < (ls.getD p []).length →
      ls.flatten.getD (((ls.take p).map List.length).sum + li) d
        = (ls.getD p []).getD li d := by
  induction ls with
  | nil => intro p li hp; cases hp
  | cons l rest ih =>
    intro p li hp hli
    cases p with
    | zero =>
      simp only [List.take_zero, List.map_nil, List.sum_nil, Nat.zero_add,
        List.flatten_cons, List.getD_cons_zero] at *
      exact List.getD_append l rest.flatten d li hli
    | succ q =>
      simp only [List.length_cons] at hp
      simp only [List.getD_cons_succ] at hli
      simp only [List.take_succ_cons, List.map_cons, List.sum_cons,
        List.flatten_cons, List.getD_cons_succ]
      rw [Nat.add_assoc]
      rw [List.getD_eq_getElem?_getD, List.getElem?_append_right (by omega),
        ← List.getD_eq_getElem?_getD]
      have h2 : l.length + (((rest.take q).map List.length).sum + li) - l.length
          = ((rest.take q).map List.length).sum + li := by omega
      rw [h2]
      exact ih q li (by omega) hli

theorem flatten_pos_lt {α : Type} (ls : List (List α)) :
    ∀ p li, p < ls.length → li < (ls.getD p []).length →
      ((ls.take p).map List.length).sum + li < ls.flatten.length := by
  induction ls with
  | nil => intro p li hp; cases hp
  | cons l rest ih =>
    intro p li hp hli
    cases p with
    | zero =>
      simp only [List.take_zero, List.map_nil, List.sum_nil, Nat.zero_add,
        List.flatten_cons, List.length_append, List.getD_cons_zero] at *
      omega
    | succ q =>
      simp only [List.length_cons] at hp
      simp only [List.getD_cons_succ] at hli
      simp only [List.take_succ_cons, List.map_cons, List.sum_cons,
        List.flatten_cons, List.length_append]
      have := ih q li (by omega) hli
      omega

theorem getD_map_at {α β : Type} (l : List α) (f : α → β) (i : Nat)
    (h : i < l.length) (d : α) (d2 : β) :
    (l.map f).getD i d2 = f (l.getD i d) := by
  rw [List.getD_eq_getElem _ _ (by simpa using h), List.getD_eq_getElem _ _ h,
    List.getElem_map]

theorem getD_range_at (n i : Nat) (h : i < n) : (List.range n).getD i 0 = i := by
  rw [List.getD_eq_getElem _ _ (by simpa using h)]
  simp

theorem nodup_getD_inj (l : List Nat) (h : l.Nodup) (i j : Nat)
    (hi : i < l.length) (hj : j < l.length) (he : l.getD i 0 = l.getD j 0) :
    i = j := by
  rw [List.getD_eq_getElem l 0 hi, List.getD_eq_getElem l 0 hj] at he
  have h2 : l.get ⟨i, hi⟩ = l.get ⟨j, hj⟩ := by simpa using he
  exact congrArg Fin.val (List.nodup_iff_injective_get.mp h h2)

theorem argsort_perm_range_getD (keys sorter : List Nat) (n : Nat)
    (hkeys : keys.Perm (List.range n)) (hsort : IsArgsortOf sorter keys) :
    ∀ i, i < n → keys.getD (sorter.getD i 0) 0 = i := by
  obtain ⟨hperm, hsorted⟩ := hsort
  have hklen : keys.length = n := hkeys.length_eq.trans (List.length_range n)
  have hslen : sorter.length = n := by
    have := hperm.length_eq
    simpa [hklen] using this
  have hmapeq : sorter.map (fun j => keys.getD j 0) = List.range n := by
    refine List.eq_of_perm_of_sorted ?_ hsorted (List.sorted_le_range n)
    have e1 : List.Perm (sorter.map (fun j => keys.getD j 0))
        ((List.range keys.length).map (fun j => keys.getD j 0)) := hperm.map _
    have e2 : (List.range keys.length).map (fun j => keys.getD j 0) = keys :=
      map_getD_range keys 0
    rw [e2] at e1
    exact e1.trans hkeys
  intro i hi
  have h1 : (sorter.map (fun j => keys.getD j 0)).getD i 0 = (List.range n).getD i 0 := by
    rw [hmapeq]
  rw [getD_map_at sorter _ i (by omega) 0 0, getD_range_at n i hi] at h1
  exact h1

theorem componentLayouts_flatten_getD (L : Nat → Component → List (ℚ × ℚ))
    (hL : ∀ q c, (L q c).length = c.length) :
    ∀ (scomps : List Component) (p0 p li : Nat),
      p < scomps.length → li < (scomps.getD p []).length →
      ((componentLayouts L p0 scomps).flatten).getD
          (((scomps.take p).map List.length).sum + li) (0, 0)
        = (L (p0 + p) (scomps.getD p [])).getD li (0, 0) := by
  intro scomps
  induction scomps with
  | nil =>
    intro p0 p li hp
    cases hp
  | cons c rest ih =>
    intro p0 p li hp hli
    cases p with
    | zero =>
      simp only [List.getD_cons_zero] at hli
      simp only [List.take_zero, List.map_nil, List.sum_nil, Nat.zero_add,
        List.getD_cons_zero, Nat.add_zero]
      show ((L p0 c :: componentLayouts L (p0 + 1) rest).flatten).getD li (0, 0)
        = (L p0 c).getD li (0, 0)
      rw [List.flatten_cons]
      exact List.getD_append _ _ _ _ (by rw [hL]; exact hli)
    | succ q =>
      simp only [List.length_cons] at hp
      simp only [List.getD_cons_succ] at hli
      simp only [List.take_succ_cons, List.map_cons, List.sum_cons,
        List.getD_cons_succ]
      simp only [componentLayouts, List.flatten_cons]
      rw [Nat.add_assoc]
      rw [List.getD_eq_getElem?_getD,
        List.getElem?_append_right (by rw [hL]; omega),
        ← List.getD_eq_getElem?_getD]
      have h2 : c.length + (((rest.take q).map List.length).sum + li)
          - (L p0 c).length = ((rest.take q).map List.length).sum + li := by
        rw [hL]
        omega
      rw [h2]
      rw [show p0 + (q + 1) = p0 + 1 + q by omega]
      exact ih (p0 + 1) q li (by omega) hli

theorem layout_gather_aux (n : Nat) (scomps : List Component) (vsorter : List Nat)
    (L : Nat → Component → List (ℚ × ℚ))
    (hL : ∀ q c, (L q c).length = c.length)
    (hpart : (vertexIds scomps).Perm (List.range n))
    (hsort : IsArgsortOf vsorter (vertexIds scomps)) :
    ∀ p li, p < scomps.length → li < (scomps.getD p []).length →
      (vsorter.map (fun j => ((componentLayouts L 0 scomps).flatten).getD j (0, 0))).getD
          ((scomps.getD p []).getD li 0) (0, 0)
        = (L p (scomps.getD p [])).getD li (0, 0) := by
  intro p li hp hli
  have hklen : (vertexIds scomps).length = n :=
    hpart.length_eq.trans (List.length_range n)
  have hslen : vsorter.length = n := by
    have := hsort.1.length_eq
    simpa [hklen] using this
  have hkey : (vertexIds scomps).getD (((scomps.take p).map List.length).sum + li) 0
      = (scomps.getD p []).getD li 0 := flatten_getD scomps 0 p li hp hli
  have hpos : ((scomps.take p).map List.length).sum + li < (vertexIds scomps).length :=
    flatten_pos_lt scomps p li hp hli
  have hi_mem : (scomps.getD p []).getD li 0 ∈ vertexIds scomps := by
    rw [← hkey, List.getD_eq_getElem _ _ hpos]
    exact List.getElem_mem hpos
  have hi_lt : (scomps.getD p []).getD li 0 < n :=
    List.mem_range.mp (hpart.subset hi_mem)
  have hrec := argsort_perm_range_getD (vertexIds scomps) vsorter n hpart hsort
    ((scomps.getD p []).getD li 0) hi_lt
  have hsv_mem : vsorter.getD ((scomps.getD p []).getD li 0) 0 ∈ vsorter := by
    rw [List.getD_eq_getElem _ _ (by omega)]
    exact List.getElem_mem (by omega)
  have hsv_lt : vsorter.getD ((scomps.getD p []).getD li 0) 0
      < (vertexIds scomps).length :=
    List.mem_range.mp (hsort.1.subset hsv_mem)
  have hnodup : (vertexIds scomps).Nodup :=
    hpart.symm.nodup (List.nodup_range n)
  have heq_idx : vsorter.getD ((scomps.getD p []).getD li 0) 0
      = ((scomps.take p).map List.length).sum + li := by
    apply nodup_getD_inj (vertexIds scomps) hnodup _ _ hsv_lt hpos
    rw [hrec, hkey]
  rw [getD_map_at vsorter _ _ (by omega) 0 (0, 0), heq_idx]
  have hfin := componentLayouts_flatten_getD L hL scomps 0 p li hp hli
  simpa using hfin

/-- Claim C1: for every decomposition of an `n`-vertex graph into `k ≥ 1`
components (a partition of the original ids `0..n-1`), any internal component
processing order, any per-component layout `L` producing one coordinate row
per component vertex, and any argsort of the concatenated vertex ids,
`layout_components` returns exactly `n` rows, and the row at position `i`
holds the rescaled coordinates computed for the vertex whose original id is
`i` (its local row in its component's layout). -/
theorem c1_layout_components_rows (n : Nat) (comps : List Component)
    (order vsorter : List Nat) (L : Nat → Component → List (ℚ × ℚ))
    (_hk : comps ≠ [])
    (hL : ∀ q c, (L q c).length = c.length)
    (hpart : (vertexIds (componentsSorted comps order)).Perm (List.range n))
    (hsort : IsArgsortOf vsorter (vertexIds (componentsSorted comps order))) :
    (layoutComponentsModel comps order vsorter L).length = n ∧
    ∀ p li, p < (componentsSorted comps order).length →
      li < ((componentsSorted comps order).getD p []).length →
      (layoutComponentsModel comps order vsorter L).getD
          (((componentsSorted comps order).getD p []).getD li 0) (0, 0)
        = (L p ((componentsSorted comps order).getD p [])).getD li (0, 0) := by
  have hklen : (vertexIds (componentsSorted comps order)).length = n :=
    hpart.length_eq.trans (List.length_range n)
  have hslen : vsorter.length = n := by
    have := hsort.1.length_eq
    simpa [hklen] using this
  constructor
  · simp [layoutComponentsModel, hslen]
  · intro p li hp hli
    exact layout_gather_aux n (componentsSorted comps order) vsorter L hL hpart hsort
      p li hp hli

theorem c1_layout_components_rows_witness :
    (layoutComponentsModel [[1], [0, 2]] [0, 1] [1, 0, 2]
        (fun q c => c.map (fun (v : Nat) => ((q : ℚ), (v : ℚ))))).length = 3 ∧
    ∀ p li, p < (componentsSorted [[1], [0, 2]] [0, 1]).length →
      li < ((componentsSorted [[1], [0, 2]] [0, 1]).getD p []).length →
      (layoutComponentsModel [[1], [0, 2]] [0, 1] [1, 0, 2]
          (fun q c => c.map (fun (v : Nat) => ((q : ℚ), (v : ℚ))))).getD
          (((componentsSorted [[1], [0, 2]] [0, 1]).getD p []).getD li 0) (0, 0)
        = ((fun (q : Nat) (c : Component) => c.map (fun (v : Nat) => ((q : ℚ), (v : ℚ)))) p
            ((componentsSorted [[1], [0, 2]] [0, 1]).getD p [])).getD li (0, 0) :=
  c1_layout_components_rows 3 [[1], [0, 2]] [0, 1] [1, 0, 2]
    (fun q c => c.map (fun (v : Nat) => ((q : ℚ), (v : ℚ))))
    (by decide) (fun q c => by simp) (by decide) (by decide)

/-! ## numpy argsort: the small-array insertion path is a stable sort -/


theorem set_append_suffix {α : Type} (l1 l2 : List α) (k : Nat) (a : α) :
    (l1 ++ l2).set (l1.length + k) a = l1 ++ l2.set k a := by
  rw [List.set_append, if_neg (by omega)]
  congr 2
  omega

theorem stableInsert_append_gt (v : List Nat) (vi b : Nat) (s : List Nat)
    (h : v.getD vi 0 < v.getD b 0) :
    stableInsert v vi (s ++ [b]) = stableInsert v vi s ++ [b] := by
  induction s with
  | nil =>
    rw [List.nil_append]
    simp only [stableInsert]
    rw [if_pos h]
    rfl
  | cons a rest ih =>
    rw [List.cons_append]
    simp only [stableInsert]
    by_cases ha : v.getD vi 0 < v.getD a 0
    · rw [if_pos ha, if_pos ha]
      rfl
    · rw [if_neg ha, if_neg ha, ih]
      rfl

theorem stableInsert_at_end (v : List Nat) (vi : Nat) (s : List Nat)
    (h : ∀ j ∈ s, ¬v.getD vi 0 < v.getD j 0) :
    stableInsert v vi s = s ++ [vi] := by
  induction s with
  | nil => rfl
  | cons a rest ih =>
    rw [stableInsert, if_neg (h a (List.mem_cons_self a rest))]
    rw [ih (fun j hj => h j (List.mem_cons_of_mem a hj))]
    rfl

theorem insShift_spec (v : List Nat) (vi : Nat) :
    ∀ (s : List Nat), ((s.map (fun j => v.getD j 0)).Sorted (· ≤ ·)) →
      ∀ (hole : Nat) (rest : List Nat),
      (insShift v (v.getD vi 0) 0 s.length (s ++ hole :: rest)).1.set
          (insShift v (v.getD vi 0) 0 s.length (s ++ hole :: rest)).2 vi
        = stableInsert v vi s ++ rest := by
  intro s
  induction s using List.reverseRecOn with
  | nil =>
    intro hs hole rest
    simp [insShift, stableInsert]
  | append_singleton s2 b ih =>
    intro hs hole rest
    have hs2 : (s2.map (fun j => v.getD j 0)).Sorted (· ≤ ·) := by
      refine List.Pairwise.sublist ?_ hs
      rw [List.map_append]
      exact List.sublist_append_left _ _
    have hlen : (s2 ++ [b]).length = s2.length + 1 := by simp
    have ht : s2 ++ [b] ++ hole :: rest = s2 ++ b :: hole :: rest := by simp
    rw [hlen, ht]
    have hread : (s2 ++ b :: hole :: rest).getD s2.length 0 = b := by
      rw [List.getD_eq_getElem?_getD, List.getElem?_append_right (le_refl _)]
      simp
    by_cases hv : v.getD vi 0 < v.getD b 0
    · have hguard : 0 ≤ s2.length ∧
          v.getD vi 0 < vAt v (s2 ++ b :: hole :: rest) s2.length :=
        ⟨Nat.zero_le _, by rw [vAt, hread]; exact hv⟩
      rw [insShift, if_pos hguard]
      have hset : (s2 ++ b :: hole :: rest).set (s2.length + 1)
          ((s2 ++ b :: hole :: rest).getD s2.length 0) = s2 ++ b :: b :: rest := by
        rw [hread, show s2.length + 1 = (s2.length + 1) + 0 by omega,
          show s2 ++ b :: hole :: rest = (s2 ++ [b]) ++ hole :: rest by simp,
          show ((s2 ++ [b]) ++ hole :: rest).set (s2.length + 1 + 0) b
            = ((s2 ++ [b]) ++ hole :: rest).set ((s2 ++ [b]).length + 0) b by simp,
          set_append_suffix]
        simp
      rw [hset]
      have := ih hs2 b (b :: rest)
      rw [show s2 ++ b :: b :: rest = s2 ++ b :: (b :: rest) from rfl]
      rw [this]
      rw [stableInsert_append_gt v vi b s2 hv]
      simp
    · have hguard : ¬(0 ≤ s2.length ∧
          v.getD vi 0 < vAt v (s2 ++ b :: hole :: rest) s2.length) := by
        rintro ⟨h1, h2⟩
        rw [vAt, hread] at h2
        exact hv h2
      rw [insShift, if_neg hguard]
      have hvals : ∀ j ∈ s2 ++ [b], ¬v.getD vi 0 < v.getD j 0 := by
        intro j hj
        rcases List.mem_append.mp hj with hj2 | hj2
        · have hjb : v.getD j 0 ≤ v.getD b 0 := by
            have hp := List.pairwise_append.mp (by
              rw [← List.map_append]
              exact hs)
            exact hp.2.2 (v.getD j 0) (List.mem_map_of_mem _ hj2)
              (v.getD b 0) (by simp)
          intro hcon
          exact hv (lt_of_lt_of_le hcon hjb)
        · rw [List.mem_singleton.mp hj2]
          exact hv
      rw [stableInsert_at_end v vi (s2 ++ [b]) hvals]
      rw [show s2.length + 1 = (s2 ++ [b]).length + 0 by simp,
        show s2 ++ b :: hole :: rest = (s2 ++ [b]) ++ hole :: rest by simp,
        set_append_suffix]
      simp

theorem stableInsert_length (v : List Nat) (i : Nat) :
    ∀ l : List Nat, (stableInsert v i l).length = l.length + 1 := by
  intro l
  induction l with
  | nil => rfl
  | cons a rest ih =>
    simp only [stableInsert]
    by_cases hv : v.getD i 0 < v.getD a 0
    · rw [if_pos hv]
      rfl
    · rw [if_neg hv]
      simp [ih]

theorem stableInsert_perm (v : List Nat) (i : Nat) :
    ∀ l : List Nat, (stableInsert v i l).Perm (i :: l) := by
  intro l
  induction l with
  | nil => exact List.Perm.refl _
  | cons a rest ih =>
    simp only [stableInsert]
    by_cases hv : v.getD i 0 < v.getD a 0
    · rw [if_pos hv]
    · rw [if_neg hv]
      exact (ih.cons a).trans (List.Perm.swap i a rest)

theorem mem_stableInsert (v : List Nat) (i x : Nat) (l : List Nat) :
    x ∈ stableInsert v i l ↔ x = i ∨ x ∈ l := by
  rw [(stableInsert_perm v i l).mem_iff, List.mem_cons]

theorem stableInsert_sorted (v : List Nat) (i : Nat) :
    ∀ l : List Nat, ((l.map (fun j => v.getD j 0)).Sorted (· ≤ ·)) →
      (((stableInsert v i l).map (fun j => v.getD j 0)).Sorted (· ≤ ·)) := by
  intro l
  induction l with
  | nil =>
    intro _
    simp [stableInsert]
  | cons a rest ih =>
    intro hs
    have hsc := List.sorted_cons.mp (by simpa using hs :
      List.Sorted (· ≤ ·) (v.getD a 0 :: rest.map (fun j => v.getD j 0)))
    simp only [stableInsert]
    by_cases hv : v.getD i 0 < v.getD a 0
    · rw [if_pos hv]
      rw [List.map_cons, List.sorted_cons]
      refine ⟨?_, by simpa using hs⟩
      intro b hb
      rw [List.map_cons] at hb
      rcases List.mem_cons.mp hb with rfl | hb2
      · exact le_of_lt hv
      · exact le_trans (le_of_lt hv) (hsc.1 b hb2)
    · rw [if_neg hv]
      rw [List.map_cons, List.sorted_cons]
      constructor
      · intro b hb
        obtain ⟨j, hj, rfl⟩ := List.mem_map.mp hb
        rcases (mem_stableInsert v i j rest).mp hj with rfl | hj2
        · exact le_of_not_lt hv
        · exact hsc.1 _ (List.mem_map_of_mem _ hj2)
      · exact ih hsc.2

theorem insLoop_spec (v : List Nat) :
    ∀ (todo s : List Nat), ((s.map (fun j => v.getD j 0)).Sorted (· ≤ ·)) →
      insLoop v 0 s.length todo.length (s ++ todo)
        = todo.foldl (fun acc i => stableInsert v i acc) s := by
  intro todo
  induction todo with
  | nil =>
    intro s hs
    simp [insLoop]
  | cons vi todo2 ih =>
    intro s hs
    have hread : (s ++ vi :: todo2).getD s.length 0 = vi := by
      rw [List.getD_eq_getElem?_getD, List.getElem?_append_right (le_refl _)]
      simp
    rw [show (vi :: todo2).length = todo2.length + 1 from rfl]
    rw [insLoop, hread]
    rw [insShift_spec v vi s hs vi todo2]
    rw [show s.length + 1 = (stableInsert v vi s).length from
      (stableInsert_length v vi s).symm]
    rw [ih (stableInsert v vi s) (stableInsert_sorted v vi s hs)]
    rfl

theorem insertionSeg_eq_insertionArgsortL (v : List Nat) :
    insertionSeg v 0 (v.length - 1) (List.range v.length) = insertionArgsortL v := by
  rcases hn : v.length with _ | m
  · rw [insertionArgsortL, hn]
    rfl
  · rw [insertionSeg, List.range_succ_eq_map]
    have h1 : m + 1 - 1 - 0 = ((List.range m).map Nat.succ).length := by simp
    have h2 : (0 : Nat) + 1 = ([0] : List Nat).length := rfl
    rw [h1, h2, show (0 : Nat) :: (List.range m).map Nat.succ
      = [0] ++ (List.range m).map Nat.succ from rfl]
    rw [insLoop_spec v ((List.range m).map Nat.succ) [0] (by simp)]
    rw [insertionArgsortL, hn, List.range_succ_eq_map]
    rfl

theorem npArgsort_small (v : List Nat) (h : v.length ≤ 16) :
    npArgsort v = insertionSeg v 0 (v.length - 1) (List.range v.length) := by
  rw [npArgsort]
  rw [show v.length * v.length + 2 = (v.length * v.length + 1) + 1 from rfl]
  rw [qloop]
  rw [if_neg (by omega : ¬(15 < v.length - 1 - 0))]

theorem lex_value_le (v : List Nat) (i j : Nat)
    (h : v.getD i 0 < v.getD j 0 ∨ (v.getD i 0 = v.getD j 0 ∧ i < j)) :
    v.getD i 0 ≤ v.getD j 0 := by
  rcases h with h | ⟨h, _⟩
  · exact le_of_lt h
  · exact le_of_eq h

theorem stableInsert_lex (v : List Nat) (i : Nat) :
    ∀ l : List Nat,
      l.Pairwise (fun a b => v.getD a 0 < v.getD b 0 ∨
        (v.getD a 0 = v.getD b 0 ∧ a < b)) →
      (∀ j ∈ l, j < i) →
      (stableInsert v i l).Pairwise (fun a b => v.getD a 0 < v.getD b 0 ∨
        (v.getD a 0 = v.getD b 0 ∧ a < b)) := by
  intro l
  induction l with
  | nil =>
    intro _ _
    simp [stableInsert]
  | cons a rest ih =>
    intro hl hall
    have hlc := List.pairwise_cons.mp hl
    simp only [stableInsert]
    by_cases hv : v.getD i 0 < v.getD a 0
    · rw [if_pos hv]
      refine List.pairwise_cons.mpr ⟨?_, hl⟩
      intro b hb
      rcases List.mem_cons.mp hb with rfl | hb2
      · exact Or.inl hv
      · exact Or.inl (lt_of_lt_of_le hv (lex_value_le v a b (hlc.1 b hb2)))
    · rw [if_neg hv]
      refine List.pairwise_cons.mpr ⟨?_, ih hlc.2
        (fun j hj => hall j (List.mem_cons_of_mem a hj))⟩
      intro b hb
      rcases (mem_stableInsert v i b rest).mp hb with rfl | hb2
      · rcases lt_or_eq_of_le (le_of_not_lt hv) with hlt | heq
        · exact Or.inl hlt
        · exact Or.inr ⟨heq, hall a (List.mem_cons_self a rest)⟩
      · exact hlc.1 b hb2

theorem foldl_stableInsert_perm (v : List Nat) :
    ∀ (todo acc : List Nat),
      (todo.foldl (fun acc i => stableInsert v i acc) acc).Perm (todo ++ acc) := by
  intro todo
  induction todo with
  | nil => intro acc; simp
  | cons a todo2 ih =>
    intro acc
    rw [List.foldl_cons]
    refine (ih (stableInsert v a acc)).trans ?_
    refine ((stableInsert_perm v a acc).append_left todo2).trans ?_
    exact List.perm_middle

theorem foldl_stableInsert_lex (v : List Nat) :
    ∀ (todo acc : List Nat),
      acc.Pairwise (fun a b => v.getD a 0 < v.getD b 0 ∨
        (v.getD a 0 = v.getD b 0 ∧ a < b)) →
      (∀ j ∈ acc, ∀ i ∈ todo, j < i) →
      todo.Pairwise (· < ·) →
      (todo.foldl (fun acc i => stableInsert v i acc) acc).Pairwise
        (fun a b => v.getD a 0 < v.getD b 0 ∨
          (v.getD a 0 = v.getD b 0 ∧ a < b)) := by
  intro todo
  induction todo with
  | nil =>
    intro acc hacc _ _
    exact hacc
  | cons a todo2 ih =>
    intro acc hacc hall htodo
    have htc := List.pairwise_cons.mp htodo
    rw [List.foldl_cons]
    refine ih (stableInsert v a acc) ?_ ?_ htc.2
    · exact stableInsert_lex v a acc hacc
        (fun j hj => hall j hj a (List.mem_cons_self a todo2))
    · intro j hj i hi
      rcases (mem_stableInsert v a j acc).mp hj with rfl | hj2
      · exact htc.1 i hi
      · exact hall j hj2 i (List.mem_cons_of_mem a hi)

theorem insertionArgsortL_perm (v : List Nat) :
    (insertionArgsortL v).Perm (List.range v.length) := by
  rw [insertionArgsortL]
  refine (foldl_stableInsert_perm v (List.range v.length) []).trans ?_
  simp

theorem insertionArgsortL_lex (v : List Nat) :
    (insertionArgsortL v).Pairwise (fun a b => v.getD a 0 < v.getD b 0 ∨
      (v.getD a 0 = v.getD b 0 ∧ a < b)) := by
  rw [insertionArgsortL]
  refine foldl_stableInsert_lex v (List.range v.length) [] (List.Pairwise.nil) ?_ ?_
  · intro j hj
    cases hj
  · exact List.sorted_lt_range v.length

/-- Claim C4 (amended): `layout_components` processes the components in the
order `np.argsort(component_sizes)`; for at most 16 components numpy's
introsort runs its insertion-sort path, so the order sorts the sizes
ascending AND equal sizes keep the decomposition's discovery order (the
order is lexicographically sorted by (size, discovery index)).  With 17 or
more components the quicksort path runs and ties are permuted. -/
theorem c4_amended_sorted_stable_upto_16 (v : List Nat) (h : v.length ≤ 16) :
    (componentOrder v).Perm (List.range v.length) ∧
    (componentOrder v).Pairwise (fun i j => v.getD i 0 < v.getD j 0 ∨
      (v.getD i 0 = v.getD j 0 ∧ i < j)) := by
  have he : componentOrder v = insertionArgsortL v := by
    rw [componentOrder, npArgsort_small v h, insertionSeg_eq_insertionArgsortL]
  rw [he]
  exact ⟨insertionArgsortL_perm v, insertionArgsortL_lex v⟩

theorem c4_amended_sorted_stable_upto_16_witness :
    (componentOrder [2, 1, 2, 1]).Perm (List.range ([2, 1, 2, 1] : List Nat).length) ∧
    (componentOrder [2, 1, 2, 1]).Pairwise (fun i j =>
      ([2, 1, 2, 1] : List Nat).getD i 0 < ([2, 1, 2, 1] : List Nat).getD j 0 ∨
      (([2, 1, 2, 1] : List Nat).getD i 0 = ([2, 1, 2, 1] : List Nat).getD j 0 ∧ i < j)) :=
  c4_amended_sorted_stable_upto_16 [2, 1, 2, 1] (by decide)

/-- Claim C4 (counterexample): a graph of 17 isolated vertices decomposes
into 17 components, all of size 1, discovered in id order; numpy's default
`argsort` (quicksort, `SMALL_QUICKSORT = 15` exceeded) permutes these equal
sizes, so the processing order does NOT preserve the decomposition's
discovery order — the sort is not stable. -/
theorem c4_claim_counterexample :
    componentOrder (List.replicate 17 1)
      = [0, 14, 13, 12, 11, 10, 9, 15, 8, 6, 5, 4, 3, 2, 1, 7, 16] ∧
    componentOrder (List.replicate 17 1) ≠ List.range 17 := by
  constructor
  · decide
  · decide
